import Mathlib

/-!
# Verification of `any.h` (namespace `any`)

A shallow embedding of the dynamically typed value library of `src/any.h`:
the tagged base class `Any`, the scalar classes `Int`, `Double`, `String`,
`Null` and the container classes `Vector`, `Map`, `Ecma`.

Conventions of the embedding.

* A pointer `Any*` is an address, a natural number; `NULL` is address `0`.
* `uint8_t` and `size_t` are natural numbers; where the source computes on a
  `size_t` the wrap-around modulo `2^64` is written out.
* `std::vector<T>` is `List T`, `std::pair<A, B>` is `A × B`.
* A member function that writes to a member returns the new object next to
  its result; a member function without any write returns its result only.
* Code with undefined behaviour returns `Except.error` with the `Fault`.
-/

set_option autoImplicit false

/-- The C++ type `uint8_t`: values `0 .. 255`. -/
abbrev uint8_t := Nat

/-- The C++ type `size_t` of a 64-bit target: values `0 .. 2^64 - 1`. -/
abbrev size_t := Nat

/-- The C++ type `int64_t`. -/
abbrev int64_t := Int

/-- The number of values of a `size_t`. -/
def SIZE_MODULUS : Nat := 2 ^ 64

/-- The C++ type `double`: an IEEE-754 binary64 value, kept as its 64-bit
pattern. The library only stores and copies doubles. -/
structure double where
  bits : Nat
deriving DecidableEq, Repr

namespace std

/-- The C++ type `std::string`. -/
abbrev string := String

end std

namespace any

/-- A pointer `Any*`: the address of an object, or `NULL`. -/
abbrev Ptr := Nat

/-- The null pointer. -/
def NULL : Ptr := 0

/-- What undefined behaviour the embedded code can run into. -/
inductive Fault where
  /-- `val_[index]` of a `std::vector` with `index >= size()`. -/
  | outOfBounds
  /-- `delete` of a pointer that is not the address of a live object. -/
  | invalidDelete
  /-- an unchecked downcast of an object of another class. -/
  | typeConfusion
  /-- the recursion budget of the model is used up (not a C++ behaviour). -/
  | outOfFuel
deriving DecidableEq, Repr

def kInt : uint8_t := 0
def kDouble : uint8_t := 1
def kString : uint8_t := 2
def kVector : uint8_t := 3
def kMap : uint8_t := 4
def kNull : uint8_t := 5
def kEcma : uint8_t := 6

/-- `AnyTypeToStr`: the `switch` over the tag. -/
def AnyTypeToStr (type : uint8_t) : std.string :=
  if type = kInt then "kInt"
  else if type = kDouble then "kDouble"
  else if type = kString then "kString"
  else if type = kVector then "kVector"
  else if type = kMap then "kMap"
  else if type = kNull then "kNull"
  else if type = kEcma then "kEcma"
  else "kUnknown"

/-- `std::vector<std::pair<std::string, Any*>>`. -/
abbrev map_type := List (std.string × Ptr)

/-- `std::vector<Any*>`. -/
abbrev vec_type := List Ptr

/-- `std::vector<std::pair<std::string, Any*>>`. -/
abbrev ecma_type := List (std.string × Ptr)

/-- The base class `Any`: the private member `type_`. -/
structure Any where
  type_ : uint8_t
deriving DecidableEq, Repr

namespace Any

/-- `explicit Any(const uint8_t& type) : type_(type) {}`. -/
def ctor (type : uint8_t) : Any := { type_ := type }

def TypeStr (self : Any) : std.string := AnyTypeToStr self.type_

def GetType (self : Any) : uint8_t := self.type_

def IsInt (self : Any) : Bool := self.type_ == kInt
def IsDouble (self : Any) : Bool := self.type_ == kDouble
def IsString (self : Any) : Bool := self.type_ == kString
def IsVector (self : Any) : Bool := self.type_ == kVector
def IsMap (self : Any) : Bool := self.type_ == kMap
def IsNull (self : Any) : Bool := self.type_ == kNull
def IsEcma (self : Any) : Bool := self.type_ == kEcma

end Any

/-- The class `Int : public Any`. -/
structure Int extends Any where
  val_ : int64_t
deriving DecidableEq, Repr

namespace Int

/-- `Int(const int64_t i) : Any(kInt), val_(i) {}`. -/
def ctor (i : int64_t) : Int := { toAny := Any.ctor kInt, val_ := i }

def GetVal (self : Int) : int64_t := self.val_

end Int

/-- The class `Double : public Any`. -/
structure Double extends Any where
  val_ : double
deriving DecidableEq, Repr

namespace Double

/-- `Double(const double& d) : Any(kDouble), val_(d) {}`. -/
def ctor (d : double) : Double := { toAny := Any.ctor kDouble, val_ := d }

def GetVal (self : Double) : double := self.val_

end Double

/-- The class `String : public Any`. -/
structure String extends Any where
  val_ : std.string
deriving DecidableEq, Repr

namespace String

/-- `String(const std::string& str) : Any(kString), val_(str) {}`. -/
def ctor (str : std.string) : String := { toAny := Any.ctor kString, val_ := str }

def GetVal (self : String) : std.string := self.val_

end String

/-- The class `Vector : public Any`. -/
structure Vector extends Any where
  val_ : List Ptr
  delete_when_destruct_ : Bool
deriving DecidableEq, Repr

namespace Vector

/-- `Vector(const std::vector<Any*>& v, const bool& delete_when_destruct = false)`. -/
def ctor (v : List Ptr) (delete_when_destruct : Bool := false) : Vector :=
  { toAny := Any.ctor kVector, val_ := v, delete_when_destruct_ := delete_when_destruct }

/-- `Any* operator[](const size_t& index)`: the guard compares `val_.size()`
with `index + 1`, a `size_t` sum that wraps modulo `2^64`; past the guard
`val_[index]` is read, which is undefined for `index >= val_.size()`. -/
def subscript (self : Vector) (index : size_t) : Except Fault Ptr :=
  if self.val_.isEmpty || decide (self.val_.length < (index + 1) % SIZE_MODULUS) then
    .ok NULL
  else
    match self.val_.get? index with
    | some any => .ok any
    | none => .error Fault.outOfBounds

def GetVal (self : Vector) : List Ptr := self.val_

end Vector

/-- The class `Map : public Any` (the branch of `#if 1`). -/
structure Map extends Any where
  val_ : List (std.string × Ptr)
  delete_when_destruct_ : Bool
deriving DecidableEq, Repr

namespace Map

/-- `Map(const std::vector<std::pair<std::string, Any*>>& m,
const bool& delete_when_destruct = false)`. -/
def ctor (m : List (std.string × Ptr)) (delete_when_destruct : Bool := false) : Map :=
  { toAny := Any.ctor kMap, val_ := m, delete_when_destruct_ := delete_when_destruct }

/-- `Map(const bool& delete_when_destruct = false)`: `val_` is default-initialised. -/
def ctor_empty (delete_when_destruct : Bool := false) : Map :=
  { toAny := Any.ctor kMap, val_ := [], delete_when_destruct_ := delete_when_destruct }

/-- The loop of `operator[]`: `for (auto& item : val_)` with its early
`return item.second`, and `return NULL` after the loop. -/
def subscript_loop (key : std.string) : List (std.string × Ptr) → Ptr
  | [] => NULL
  | item :: rest => if item.1 = key then item.2 else subscript_loop key rest

/-- `Any* operator[](const std::string& key)`. -/
def subscript (self : Map) (key : std.string) : Ptr :=
  subscript_loop key self.val_

/-- `bool Insert(const std::string& key, Any* val)`: `push_back`, then `true`. -/
def Insert (self : Map) (key : std.string) (val : Ptr) : Map × Bool :=
  ({ self with val_ := self.val_ ++ [(key, val)] }, true)

def GetVal (self : Map) : List (std.string × Ptr) := self.val_

end Map

/-- The class `Null : public Any`. -/
structure Null extends Any where
deriving DecidableEq, Repr

namespace Null

/-- `Null() : Any(kNull) {}`. -/
def ctor : Null := { toAny := Any.ctor kNull }

end Null

/-- The class `Ecma : public Any`. -/
structure Ecma extends Any where
  val_ : List (std.string × Ptr)
  delete_when_destruct_ : Bool
deriving DecidableEq, Repr

namespace Ecma

/-- `Ecma(const std::vector<std::pair<std::string, Any*>>& m,
const bool& delete_when_destruct = false)`. -/
def ctor (m : List (std.string × Ptr)) (delete_when_destruct : Bool := false) : Ecma :=
  { toAny := Any.ctor kEcma, val_ := m, delete_when_destruct_ := delete_when_destruct }

/-- `Ecma(const bool& delete_when_destruct = false)`: `val_` is default-initialised. -/
def ctor_empty (delete_when_destruct : Bool := false) : Ecma :=
  { toAny := Any.ctor kEcma, val_ := [], delete_when_destruct_ := delete_when_destruct }

/-- The loop of `operator[]`: `for (auto& item : val_)` with its early
`return item.second`, and `return NULL` after the loop. -/
def subscript_loop (key : std.string) : List (std.string × Ptr) → Ptr
  | [] => NULL
  | item :: rest => if item.1 = key then item.2 else subscript_loop key rest

/-- `Any* operator[](const std::string& key)`. -/
def subscript (self : Ecma) (key : std.string) : Ptr :=
  subscript_loop key self.val_

/-- `bool Insert(const std::string& key, Any* val)`: `push_back`, then `true`. -/
def Insert (self : Ecma) (key : std.string) (val : Ptr) : Ecma × Bool :=
  ({ self with val_ := self.val_ ++ [(key, val)] }, true)

def GetVal (self : Ecma) : List (std.string × Ptr) := self.val_

end Ecma

/-! ## Sequences of calls on one object -/

/-- Filling a Map by `Insert(k1, v1)`, ..., `Insert(kn, vn)` in that order. -/
def Map.insertAll (self : Map) (pairs : List (std.string × Ptr)) : Map :=
  pairs.foldl (fun m kv => (m.Insert kv.1 kv.2).1) self

/-- Filling an Ecma by `Insert(k1, v1)`, ..., `Insert(kn, vn)` in that order. -/
def Ecma.insertAll (self : Ecma) (pairs : List (std.string × Ptr)) : Ecma :=
  pairs.foldl (fun m kv => (m.Insert kv.1 kv.2).1) self

/-- The calls a client can make on an `Int`, `Double` or `String` object. -/
inductive ScalarCall where
  | GetVal
deriving DecidableEq, Repr

/-- The calls a client can make on a `Vector` object. -/
inductive VectorCall where
  | subscript (index : size_t)
  | GetVal
deriving DecidableEq, Repr

/-- The calls a client can make on a `Map` or an `Ecma` object. -/
inductive MapCall where
  | subscript (key : std.string)
  | Insert (key : std.string) (val : Ptr)
  | GetVal
deriving DecidableEq, Repr

/-- The `Int` object after a call: `GetVal` has no write. -/
def Int.after (self : Int) : ScalarCall → Int
  | .GetVal => self

/-- The `Double` object after a call: `GetVal` has no write. -/
def Double.after (self : Double) : ScalarCall → Double
  | .GetVal => self

/-- The `String` object after a call: `GetVal` has no write. -/
def String.after (self : String) : ScalarCall → String
  | .GetVal => self

/-- The `Vector` object after a call: neither `operator[]` nor `GetVal` has a
write; an `operator[]` that reads out of bounds leaves no defined object. -/
def Vector.after (self : Vector) : VectorCall → Except Fault Vector
  | .subscript index =>
    match self.subscript index with
    | .ok _ => .ok self
    | .error e => .error e
  | .GetVal => .ok self

/-- The `Vector` object after a sequence of calls. -/
def Vector.afterAll (self : Vector) : List VectorCall → Except Fault Vector
  | [] => .ok self
  | c :: cs =>
    match self.after c with
    | .ok next => next.afterAll cs
    | .error e => .error e

/-- The `Map` object after a call: only `Insert` has a write. -/
def Map.after (self : Map) : MapCall → Map
  | .subscript _ => self
  | .Insert key val => (self.Insert key val).1
  | .GetVal => self

/-- The `Ecma` object after a call: only `Insert` has a write. -/
def Ecma.after (self : Ecma) : MapCall → Ecma
  | .subscript _ => self
  | .Insert key val => (self.Insert key val).1
  | .GetVal => self

/-! ## Objects behind an `Any*`, and the checked accessors -/

/-- An object of one of the seven concrete classes, as an `Any*` points to it. -/
inductive Obj where
  | ofInt (o : Int)
  | ofDouble (o : Double)
  | ofString (o : String)
  | ofVector (o : Vector)
  | ofMap (o : Map)
  | ofNull (o : Null)
  | ofEcma (o : Ecma)
deriving DecidableEq, Repr

namespace Obj

/-- The base-class subobject. -/
def toAny : Obj → Any
  | ofInt o => o.toAny
  | ofDouble o => o.toAny
  | ofString o => o.toAny
  | ofVector o => o.toAny
  | ofMap o => o.toAny
  | ofNull o => o.toAny
  | ofEcma o => o.toAny

/-- Modelled from the spec: `bool Any::GetInt(int64_t& val)` is declared in
`any.h` and defined outside the sources at hand. The spec's `TryGet<Kind>`:
false with `val` untouched when the tag does not match, true with the payload
copied out otherwise; the payload is reached through the unchecked cast. -/
def GetInt (self : Obj) (val : int64_t) : Except Fault (Bool × int64_t) :=
  if self.toAny.IsInt then
    match self with
    | ofInt o => .ok (true, o.GetVal)
    | _ => .error Fault.typeConfusion
  else .ok (false, val)

/-- Modelled from the spec: `bool Any::GetDouble(double& val)`, as `GetInt`. -/
def GetDouble (self : Obj) (val : double) : Except Fault (Bool × double) :=
  if self.toAny.IsDouble then
    match self with
    | ofDouble o => .ok (true, o.GetVal)
    | _ => .error Fault.typeConfusion
  else .ok (false, val)

/-- Modelled from the spec: `bool Any::GetString(std::string& val)`, as `GetInt`. -/
def GetString (self : Obj) (val : std.string) : Except Fault (Bool × std.string) :=
  if self.toAny.IsString then
    match self with
    | ofString o => .ok (true, o.GetVal)
    | _ => .error Fault.typeConfusion
  else .ok (false, val)

/-- Modelled from the spec: `bool Any::GetVector(std::vector<Any*>& val)`, as `GetInt`. -/
def GetVector (self : Obj) (val : List Ptr) : Except Fault (Bool × List Ptr) :=
  if self.toAny.IsVector then
    match self with
    | ofVector o => .ok (true, o.GetVal)
    | _ => .error Fault.typeConfusion
  else .ok (false, val)

/-- Modelled from the spec: `bool Any::GetMap(any::map_type& val)`, as `GetInt`. -/
def GetMap (self : Obj) (val : map_type) : Except Fault (Bool × map_type) :=
  if self.toAny.IsMap then
    match self with
    | ofMap o => .ok (true, o.GetVal)
    | _ => .error Fault.typeConfusion
  else .ok (false, val)

/-- Modelled from the spec: `bool Any::GetEcma(any::ecma_type& val)`, as `GetInt`. -/
def GetEcma (self : Obj) (val : ecma_type) : Except Fault (Bool × ecma_type) :=
  if self.toAny.IsEcma then
    match self with
    | ofEcma o => .ok (true, o.GetVal)
    | _ => .error Fault.typeConfusion
  else .ok (false, val)

end Obj

/-! ## The heap, `delete` and the destructors -/

/-- A range-based `for` loop whose body acts on a state and may fault. -/
def forEach {α σ : Type} (body : α → σ → Except Fault σ) : List α → σ → Except Fault σ
  | [], s => .ok s
  | x :: rest, s =>
    match body x s with
    | .ok s1 => forEach body rest s1
    | .error e => .error e

/-- `~Vector()`: `if (delete_when_destruct_) for (auto& any : val_) delete any;`
over whatever `delete` does to the state. -/
def Vector.dtor {σ : Type} (delete : Ptr → σ → Except Fault σ) (self : Vector) (s : σ) :
    Except Fault σ :=
  if self.delete_when_destruct_ then forEach (fun any => delete any) self.val_ s else .ok s

/-- `~Map()`: `if (delete_when_destruct_) for (auto& kv : val_) delete kv.second;`. -/
def Map.dtor {σ : Type} (delete : Ptr → σ → Except Fault σ) (self : Map) (s : σ) :
    Except Fault σ :=
  if self.delete_when_destruct_ then forEach (fun kv => delete kv.2) self.val_ s else .ok s

/-- `~Ecma()`: `if (delete_when_destruct_) for (auto& kv : val_) delete kv.second;`. -/
def Ecma.dtor {σ : Type} (delete : Ptr → σ → Except Fault σ) (self : Ecma) (s : σ) :
    Except Fault σ :=
  if self.delete_when_destruct_ then forEach (fun kv => delete kv.2) self.val_ s else .ok s

/-- The virtual destructor `~Any()`, dispatched on the class of the object;
the scalar classes and `Null` have the empty destructor. -/
def Obj.dtor {σ : Type} (delete : Ptr → σ → Except Fault σ) : Obj → σ → Except Fault σ
  | .ofVector o, s => o.dtor delete s
  | .ofMap o, s => o.dtor delete s
  | .ofEcma o, s => o.dtor delete s
  | _, s => .ok s

/-- An observer in the place of `delete`: it appends the pointer to a log. -/
def recordDelete (p : Ptr) (log : List Ptr) : Except Fault (List Ptr) :=
  .ok (log ++ [p])

/-- The live heap objects with their addresses. -/
abbrev Heap := List (Ptr × Obj)

/-- The live object at address `p`, if there is one. -/
def Heap.find : Heap → Ptr → Option Obj
  | [], _ => none
  | e :: rest, p => if e.1 = p then some e.2 else Heap.find rest p

/-- The heap without the object at address `p`. -/
def Heap.free : Heap → Ptr → Heap
  | [], _ => []
  | e :: rest, p => if e.1 = p then Heap.free rest p else e :: Heap.free rest p

/-- The delete-expression `delete p`: nothing for `NULL`; otherwise `p` must
be the address of a live object, whose lifetime ends, whose destructor runs
and whose storage is released. `fuel` bounds the depth of nested destructors. -/
def delete : Nat → Ptr → Heap → Except Fault Heap
  | 0, _, _ => .error Fault.outOfFuel
  | fuel + 1, p, h =>
    if p = NULL then .ok h
    else
      match Heap.find h p with
      | none => .error Fault.invalidDelete
      | some o => Obj.dtor (delete fuel) o (Heap.free h p)

/-- The child pointers a container holds, in sequence order. -/
def Obj.children : Obj → List Ptr
  | .ofVector o => o.val_
  | .ofMap o => o.val_.map (fun kv => kv.2)
  | .ofEcma o => o.val_.map (fun kv => kv.2)
  | _ => []

/-- The ownership flag of a container; the other classes own nothing. -/
def Obj.owns : Obj → Bool
  | .ofVector o => o.delete_when_destruct_
  | .ofMap o => o.delete_when_destruct_
  | .ofEcma o => o.delete_when_destruct_
  | _ => false

/-- A heap for the examples: `Int 1` at address 1, `Int 2` at address 2. -/
def exampleHeap : Heap :=
  [(1, Obj.ofInt (Int.ctor 1)), (2, Obj.ofInt (Int.ctor 2))]

/-- The seven predicates `IsInt`, `IsDouble`, `IsString`, `IsVector`, `IsMap`,
`IsNull`, `IsEcma` of an object, in that order. -/
def Any.kinds (self : Any) : List Bool :=
  [self.IsInt, self.IsDouble, self.IsString, self.IsVector, self.IsMap, self.IsNull,
    self.IsEcma]

/-- The heap `h1` is the heap `h` with some objects released: an address is
either dead in `h1` or holds what it held in `h`. -/
def Heap.Shrinks (h h1 : Heap) : Prop :=
  ∀ q, Heap.find h1 q = none ∨ Heap.find h1 q = Heap.find h q

/-- Between `h` and `h1` the released objects took their owned children along:
when an owning container was released, each of its non-null children was live
in `h` and is released in `h1`. -/
def Heap.Closed (h h1 : Heap) : Prop :=
  ∀ q o, Heap.find h q = some o → Heap.find h1 q = none → o.owns = true →
    ∀ c ∈ o.children, c ≠ NULL → Heap.find h c ≠ none ∧ Heap.find h1 c = none

/-- What a successful destruction does to the heap. -/
def Heap.Good (h h1 : Heap) : Prop :=
  Heap.Shrinks h h1 ∧ h1.length ≤ h.length ∧ Heap.Closed h h1

/-- The address lists of the trees below the pointers `cs`, one after the
other; `none` when one of them is `none`. -/
def ownedForest (tree : Ptr → Option (List Ptr)) : List Ptr → Option (List Ptr)
  | [] => some []
  | c :: cs =>
    match tree c, ownedForest tree cs with
    | some a, some b => some (a ++ b)
    | _, _ => none

/-- The addresses of the ownership tree below `p` in the heap `h`, parents
before children: nothing for `NULL`; otherwise `p`, followed, when the object
at `p` is an owning container, by the trees below its children in sequence
order. `none` when a non-null pointer of the tree is not the address of a
live object, or when the tree is deeper than `fuel`. -/
def ownedTree : Nat → Heap → Ptr → Option (List Ptr)
  | 0, _, _ => none
  | fuel + 1, h, p =>
    if p = NULL then some []
    else
      match Heap.find h p with
      | none => none
      | some o =>
        if o.owns then
          match ownedForest (ownedTree fuel h) o.children with
          | some l => some (p :: l)
          | none => none
        else some [p]

/-- A heap for the examples of destruction: the owning Map at 4 holds the
owning Vector at 3 and the `Int` at 2; the Vector at 3 holds the `Int` at 1
and a null pointer; the Vector at 5 does not own the `Int` at 6 it holds. -/
def treeHeap : Heap :=
  [(1, Obj.ofInt (Int.ctor 10)),
   (2, Obj.ofInt (Int.ctor 20)),
   (3, Obj.ofVector (Vector.ctor [1, NULL] true)),
   (4, Obj.ofMap (Map.ctor [("v", 3), ("i", 2)] true)),
   (5, Obj.ofVector (Vector.ctor [6])),
   (6, Obj.ofInt (Int.ctor 60))]

/-! ## Vector indexing -/

/-- C1: for a Vector built from a sequence `S` (with either ownership flag) and
an index `i < len(S)`, `operator[](i)` returns the `i`-th element of `S`
itself, whatever pointer that is. -/
theorem Vector_subscript_in_range (S : List Ptr) (own : Bool) (i : size_t)
    (hi : i < S.length) :
    (Vector.ctor S own).subscript i = .ok (S.get ⟨i, hi⟩) := by
  have hne : S.isEmpty = false := by
    cases S with
    | nil => simp at hi
    | cons a t => rfl
  have hle : (i + 1) % SIZE_MODULUS ≤ S.length :=
    le_trans (Nat.mod_le _ _) hi
  have hget : S.get? i = some (S.get ⟨i, hi⟩) := List.get?_eq_get hi
  simp only [Vector.subscript, Vector.ctor, hne, Bool.false_or, decide_eq_true_eq,
    Nat.not_lt.mpr hle, if_false, hget]

theorem Vector_subscript_in_range_witness :
    (Vector.ctor [11, 0, 13] true).subscript 1 = .ok 0
      ∧ (Vector.ctor [11, 0, 13]).subscript 2 = .ok 13 :=
  ⟨Vector_subscript_in_range [11, 0, 13] true 1 (by decide),
   Vector_subscript_in_range [11, 0, 13] false 2 (by decide)⟩

theorem Vector_subscript_beyond_end (v : Vector) (i : size_t) (hlen : v.val_.length ≤ i)
    (hi : i + 1 < SIZE_MODULUS) : v.subscript i = .ok NULL := by
  have hlt : v.val_.length < (i + 1) % SIZE_MODULUS := by
    rw [Nat.mod_eq_of_lt hi]
    exact Nat.lt_succ_of_le hlen
  simp [Vector.subscript, hlt]

theorem Vector_subscript_empty (v : Vector) (i : size_t) (hv : v.val_ = []) :
    v.subscript i = .ok NULL := by
  simp [Vector.subscript, hv]

theorem Vector_subscript_wraps (v : Vector) (hne : v.val_ ≠ [])
    (hlen : v.val_.length < SIZE_MODULUS) :
    v.subscript (SIZE_MODULUS - 1) = .error Fault.outOfBounds := by
  have hwrap : (SIZE_MODULUS - 1 + 1) % SIZE_MODULUS = 0 := by
    simp [SIZE_MODULUS]
  have hempty : v.val_.isEmpty = false := by
    cases hv : v.val_ with
    | nil => exact absurd hv hne
    | cons a t => rfl
  have hget : v.val_.get? (SIZE_MODULUS - 1) = none :=
    List.get?_eq_none.mpr (Nat.le_sub_one_of_lt hlen)
  simp only [Vector.subscript, hwrap, hempty, Bool.false_or, Nat.not_lt_zero, decide_False,
    hget]
  rfl

/-- C2 (the code at the failing input): on the one-element Vector `[7]` the
index `2^64 - 1` passes the guard, since `index + 1` wraps to `0`, and the
code reads `val_[2^64 - 1]` out of bounds instead of returning `NULL`; the
index `2^64 - 2` on the same Vector, and the index `2^64 - 1` on the empty
Vector, do return `NULL`. -/
theorem Vector_subscript_max_index_out_of_bounds :
    (Vector.ctor [7]).subscript (2 ^ 64 - 1) = .error Fault.outOfBounds
      ∧ (Vector.ctor [7]).subscript (2 ^ 64 - 2) = .ok NULL
      ∧ (Vector.ctor []).subscript (2 ^ 64 - 1) = .ok NULL := by
  refine ⟨?_, ?_, ?_⟩ <;> simp [Vector.subscript, Vector.ctor, SIZE_MODULUS, NULL]

/-! ## Keyed lookup -/

theorem Map_subscript_loop_first (k : std.string) :
    ∀ (P : List (std.string × Ptr)) (j : Nat) (hj : j < P.length),
      (P.get ⟨j, hj⟩).1 = k →
      (∀ i (hi : i < j), (P.get ⟨i, Nat.lt_trans hi hj⟩).1 ≠ k) →
      Map.subscript_loop k P = (P.get ⟨j, hj⟩).2 := by
  intro P
  induction P with
  | nil => intro j hj; simp at hj
  | cons item rest ih =>
    intro j hj hk hmin
    cases j with
    | zero =>
      have h0 : item.1 = k := hk
      simp [Map.subscript_loop, h0]
    | succ j =>
      have hne : item.1 ≠ k := hmin 0 (Nat.succ_pos j)
      have hj1 : j < rest.length := Nat.lt_of_succ_lt_succ hj
      have hrec := ih j hj1 hk (fun i hi => hmin (i + 1) (Nat.succ_lt_succ hi))
      simp only [Map.subscript_loop, hne, if_false]
      exact hrec

theorem Map_subscript_loop_absent (k : std.string) :
    ∀ (P : List (std.string × Ptr)), (∀ kv ∈ P, kv.1 ≠ k) → Map.subscript_loop k P = NULL := by
  intro P
  induction P with
  | nil => intro _; rfl
  | cons item rest ih =>
    intro h
    have hne : item.1 ≠ k := h item (List.mem_cons_self _ _)
    simp only [Map.subscript_loop, hne, if_false]
    exact ih (fun kv hkv => h kv (List.mem_cons_of_mem _ hkv))

theorem Ecma_subscript_loop_eq_Map (k : std.string) :
    ∀ (P : List (std.string × Ptr)), Ecma.subscript_loop k P = Map.subscript_loop k P := by
  intro P
  induction P with
  | nil => rfl
  | cons item rest ih => simp only [Ecma.subscript_loop, Map.subscript_loop, ih]

/-- C3: for a Map holding the pair sequence `P` and a key `k`: when `j` is the
smallest position whose key is `k`, `operator[](k)` returns the value at
position `j`; when no pair has key `k`, it returns `NULL`. -/
theorem Map_subscript_first_match (m : Map) (k : std.string) :
    (∀ (j : Nat) (hj : j < m.GetVal.length),
        (m.GetVal.get ⟨j, hj⟩).1 = k →
        (∀ i (hi : i < j), (m.GetVal.get ⟨i, Nat.lt_trans hi hj⟩).1 ≠ k) →
        m.subscript k = (m.GetVal.get ⟨j, hj⟩).2)
      ∧ ((∀ kv ∈ m.GetVal, kv.1 ≠ k) → m.subscript k = NULL) :=
  ⟨fun j hj hk hmin => Map_subscript_loop_first k m.val_ j hj hk hmin,
   fun h => Map_subscript_loop_absent k m.val_ h⟩

theorem Map_subscript_first_match_witness :
    (Map.ctor [("a", 4), ("b", 5), ("b", 6)]).subscript "b" = 5
      ∧ (Map.ctor [("a", 4), ("b", 5), ("b", 6)]).subscript "c" = NULL :=
  ⟨(Map_subscript_first_match (Map.ctor [("a", 4), ("b", 5), ("b", 6)]) "b").1 1
      (by decide) (by decide) (by decide),
   (Map_subscript_first_match (Map.ctor [("a", 4), ("b", 5), ("b", 6)]) "c").2 (by decide)⟩

/-- C4: for an Ecma holding the pair sequence `P` and a key `k`, `operator[](k)`
returns the value of the first pair in sequence order whose key is `k`, and
`NULL` when no pair has key `k`; so the Ecma of `[("x", p1), ("x", p2)]`
looked up at `"x"` returns `p1`, which in the example heap is the `Int 1`. -/
theorem Ecma_subscript_first_match (e : Ecma) (k : std.string) :
    (∀ (j : Nat) (hj : j < e.GetVal.length),
        (e.GetVal.get ⟨j, hj⟩).1 = k →
        (∀ i (hi : i < j), (e.GetVal.get ⟨i, Nat.lt_trans hi hj⟩).1 ≠ k) →
        e.subscript k = (e.GetVal.get ⟨j, hj⟩).2)
      ∧ ((∀ kv ∈ e.GetVal, kv.1 ≠ k) → e.subscript k = NULL)
      ∧ (∀ p1 p2 : Ptr, (Ecma.ctor [("x", p1), ("x", p2)]).subscript "x" = p1)
      ∧ Heap.find exampleHeap ((Ecma.ctor [("x", 1), ("x", 2)]).subscript "x")
          = some (Obj.ofInt (Int.ctor 1)) := by
  refine ⟨fun j hj hk hmin => ?_, fun h => ?_, fun p1 p2 => ?_, ?_⟩
  · exact (Ecma_subscript_loop_eq_Map k e.val_).trans
      (Map_subscript_loop_first k e.val_ j hj hk hmin)
  · exact (Ecma_subscript_loop_eq_Map k e.val_).trans (Map_subscript_loop_absent k e.val_ h)
  · simp [Ecma.subscript, Ecma.ctor, Ecma.subscript_loop]
  · simp [Ecma.subscript, Ecma.ctor, Ecma.subscript_loop, exampleHeap, Heap.find]

theorem Ecma_subscript_first_match_witness :
    (Ecma.ctor [("a", 4), ("b", 5), ("b", 6)] true).subscript "b" = 5
      ∧ (Ecma.ctor [("a", 4), ("b", 5), ("b", 6)] true).subscript "c" = NULL :=
  ⟨(Ecma_subscript_first_match (Ecma.ctor [("a", 4), ("b", 5), ("b", 6)] true) "b").1 1
      (by decide) (by decide) (by decide),
   (Ecma_subscript_first_match (Ecma.ctor [("a", 4), ("b", 5), ("b", 6)] true) "c").2.1
      (by decide)⟩

/-! ## Insertion -/

/-- C5: on a Map and on an Ecma with pair sequence `P`, `Insert(k, v)` returns
true for every key (present in `P` or not) and every pointer, and leaves the
container holding `P ++ [(k, v)]`: one pair more, every old position intact,
the new pair last; tag and ownership flag are as before. -/
theorem Insert_appends (m : Map) (e : Ecma) (k : std.string) (v : Ptr) :
    ((m.Insert k v).2 = true
        ∧ (m.Insert k v).1.GetVal = m.GetVal ++ [(k, v)]
        ∧ (m.Insert k v).1.GetVal.length = m.GetVal.length + 1
        ∧ (∀ i, i < m.GetVal.length → (m.Insert k v).1.GetVal.get? i = m.GetVal.get? i)
        ∧ (m.Insert k v).1.GetVal.get? m.GetVal.length = some (k, v)
        ∧ (m.Insert k v).1.toAny = m.toAny
        ∧ (m.Insert k v).1.delete_when_destruct_ = m.delete_when_destruct_)
      ∧ ((e.Insert k v).2 = true
        ∧ (e.Insert k v).1.GetVal = e.GetVal ++ [(k, v)]
        ∧ (e.Insert k v).1.GetVal.length = e.GetVal.length + 1
        ∧ (∀ i, i < e.GetVal.length → (e.Insert k v).1.GetVal.get? i = e.GetVal.get? i)
        ∧ (e.Insert k v).1.GetVal.get? e.GetVal.length = some (k, v)
        ∧ (e.Insert k v).1.toAny = e.toAny
        ∧ (e.Insert k v).1.delete_when_destruct_ = e.delete_when_destruct_) := by
  refine ⟨⟨rfl, rfl, ?_, ?_, ?_, rfl, rfl⟩, ⟨rfl, rfl, ?_, ?_, ?_, rfl, rfl⟩⟩
  · simp [Map.Insert, Map.GetVal]
  · intro i hi
    simp only [Map.Insert, Map.GetVal] at hi ⊢
    rw [List.get?_eq_getElem?, List.get?_eq_getElem?]
    exact List.getElem?_append_left hi
  · simp [Map.Insert, Map.GetVal]
  · simp [Ecma.Insert, Ecma.GetVal]
  · intro i hi
    simp only [Ecma.Insert, Ecma.GetVal] at hi ⊢
    rw [List.get?_eq_getElem?, List.get?_eq_getElem?]
    exact List.getElem?_append_left hi
  · simp [Ecma.Insert, Ecma.GetVal]

theorem Insert_appends_witness :
    ((Map.ctor [("a", 4), ("b", 5)]).Insert "a" 9).1.GetVal.get? 1 = some ("b", 5)
      ∧ ((Ecma.ctor [("a", 4), ("b", 5)]).Insert "a" 9).1.GetVal.get? 0 = some ("a", 4) :=
  ⟨(Insert_appends (Map.ctor [("a", 4), ("b", 5)]) (Ecma.ctor [("a", 4), ("b", 5)])
      "a" 9).1.2.2.2.1 1 (by decide),
   (Insert_appends (Map.ctor [("a", 4), ("b", 5)]) (Ecma.ctor [("a", 4), ("b", 5)])
      "a" 9).2.2.2.2.1 0 (by decide)⟩

/-! ## Type tags -/

/-- C6: for every pair sequence `P` (and any ownership flags) the Map of `P`
has tag `kMap = 4` and the Ecma of `P` has tag `kEcma = 6`, two different
tags; `IsMap` holds on the Map only and `IsEcma` on the Ecma only. -/
theorem Map_Ecma_distinct_tags (P : List (std.string × Ptr)) (ownM ownE : Bool) :
    (Map.ctor P ownM).GetType = 4 ∧ (Ecma.ctor P ownE).GetType = 6
      ∧ (Map.ctor P ownM).GetType ≠ (Ecma.ctor P ownE).GetType
      ∧ (Map.ctor P ownM).IsMap = true ∧ (Map.ctor P ownM).IsEcma = false
      ∧ (Ecma.ctor P ownE).IsEcma = true ∧ (Ecma.ctor P ownE).IsMap = false := by
  refine ⟨rfl, rfl, ?_, rfl, rfl, rfl, rfl⟩
  simp [Map.ctor, Ecma.ctor, Any.ctor, Any.GetType, kMap, kEcma]

theorem Vector_subscript_ok (v : Vector) (i : size_t) (hi : i + 1 < SIZE_MODULUS) :
    ∃ p, v.subscript i = .ok p := by
  unfold Vector.subscript
  split
  · exact ⟨NULL, rfl⟩
  · rename_i hguard
    have hlen : ¬ v.val_.length < (i + 1) % SIZE_MODULUS := by
      intro hlt
      exact hguard (by simp [hlt])
    rw [Nat.mod_eq_of_lt hi] at hlen
    have hlt : i < v.val_.length :=
      Nat.lt_of_lt_of_le (Nat.lt_succ_self i) (Nat.le_of_not_lt hlen)
    rw [List.get?_eq_get hlt]
    exact ⟨_, rfl⟩

theorem Vector_after_eq_self (v v1 : Vector) (c : VectorCall) (h : v.after c = .ok v1) :
    v1 = v := by
  cases c with
  | subscript index =>
    simp only [Vector.after] at h
    split at h
    · exact (Except.ok.inj h).symm
    · cases h
  | GetVal => exact (Except.ok.inj h).symm

theorem Vector_afterAll_eq_self (cs : List VectorCall) :
    ∀ (v v1 : Vector), v.afterAll cs = .ok v1 → v1 = v := by
  induction cs with
  | nil => intro v v1 h; exact (Except.ok.inj h).symm
  | cons c cs ih =>
    intro v v1 h
    unfold Vector.afterAll at h
    split at h
    · rename_i next hnext
      have h1 := Vector_after_eq_self v next c hnext
      have h2 := ih next v1 h
      rw [h2, h1]
    · cases h

theorem Vector_afterAll_ok (cs : List VectorCall) (v : Vector)
    (hcs : ∀ i, VectorCall.subscript i ∈ cs → i + 1 < SIZE_MODULUS) :
    v.afterAll cs = .ok v := by
  induction cs with
  | nil => rfl
  | cons c cs ih =>
    have hstep : v.after c = .ok v := by
      cases c with
      | subscript index =>
        obtain ⟨p, hp⟩ := Vector_subscript_ok v index (hcs index (List.mem_cons_self _ _))
        simp only [Vector.after, hp]
      | GetVal => rfl
    simp only [Vector.afterAll, hstep]
    exact ih (fun i hi => hcs i (List.mem_cons_of_mem _ hi))

theorem Map_foldl_after_toAny (cs : List MapCall) :
    ∀ m : Map, (cs.foldl Map.after m).toAny = m.toAny := by
  induction cs with
  | nil => intro m; rfl
  | cons c cs ih =>
    intro m
    rw [List.foldl_cons, ih]
    cases c <;> rfl

theorem Ecma_foldl_after_toAny (cs : List MapCall) :
    ∀ e : Ecma, (cs.foldl Ecma.after e).toAny = e.toAny := by
  induction cs with
  | nil => intro e; rfl
  | cons c cs ih =>
    intro e
    rw [List.foldl_cons, ih]
    cases c <;> rfl

theorem Int_foldl_after (cs : List ScalarCall) : ∀ o : Int, cs.foldl Int.after o = o := by
  induction cs with
  | nil => intro o; rfl
  | cons c cs ih => intro o; cases c; exact ih o

theorem Double_foldl_after (cs : List ScalarCall) :
    ∀ o : Double, cs.foldl Double.after o = o := by
  induction cs with
  | nil => intro o; rfl
  | cons c cs ih => intro o; cases c; exact ih o

theorem String_foldl_after (cs : List ScalarCall) :
    ∀ o : String, cs.foldl String.after o = o := by
  induction cs with
  | nil => intro o; rfl
  | cons c cs ih => intro o; cases c; exact ih o

/-- C7: an object built by one of the seven constructors has the tag of its
class, and of the seven `Is<Kind>` predicates (listed by `Any.kinds` in the
order Int, Double, String, Vector, Map, Null, Ecma) exactly the one of its
class is true; this still holds after any sequence of calls of `GetVal`,
`operator[]` and `Insert` on it. On a Vector the sequence runs to its end when
no index is the largest `size_t`, and whenever it does run to its end the
object is the constructed one. -/
theorem tag_fixed_by_constructor :
    (∀ (i : int64_t) (cs : List ScalarCall),
        (cs.foldl Int.after (Int.ctor i)).GetType = kInt
          ∧ (cs.foldl Int.after (Int.ctor i)).kinds
              = [true, false, false, false, false, false, false])
      ∧ (∀ (d : double) (cs : List ScalarCall),
        (cs.foldl Double.after (Double.ctor d)).GetType = kDouble
          ∧ (cs.foldl Double.after (Double.ctor d)).kinds
              = [false, true, false, false, false, false, false])
      ∧ (∀ (s : std.string) (cs : List ScalarCall),
        (cs.foldl String.after (String.ctor s)).GetType = kString
          ∧ (cs.foldl String.after (String.ctor s)).kinds
              = [false, false, true, false, false, false, false])
      ∧ (∀ (S : List Ptr) (own : Bool),
        (Vector.ctor S own).GetType = kVector
          ∧ (Vector.ctor S own).kinds = [false, false, false, true, false, false, false]
          ∧ (∀ (cs : List VectorCall) (v1 : Vector),
              (Vector.ctor S own).afterAll cs = .ok v1 → v1 = Vector.ctor S own)
          ∧ (∀ cs : List VectorCall,
              (∀ i, VectorCall.subscript i ∈ cs → i + 1 < SIZE_MODULUS) →
              (Vector.ctor S own).afterAll cs = .ok (Vector.ctor S own)))
      ∧ (∀ (P : List (std.string × Ptr)) (own : Bool) (cs : List MapCall),
        (cs.foldl Map.after (Map.ctor P own)).GetType = kMap
          ∧ (cs.foldl Map.after (Map.ctor P own)).kinds
              = [false, false, false, false, true, false, false])
      ∧ (∀ (own : Bool) (cs : List MapCall),
        (cs.foldl Map.after (Map.ctor_empty own)).GetType = kMap
          ∧ (cs.foldl Map.after (Map.ctor_empty own)).kinds
              = [false, false, false, false, true, false, false])
      ∧ (Null.ctor.GetType = kNull
          ∧ Null.ctor.kinds = [false, false, false, false, false, true, false])
      ∧ (∀ (P : List (std.string × Ptr)) (own : Bool) (cs : List MapCall),
        (cs.foldl Ecma.after (Ecma.ctor P own)).GetType = kEcma
          ∧ (cs.foldl Ecma.after (Ecma.ctor P own)).kinds
              = [false, false, false, false, false, false, true])
      ∧ (∀ (own : Bool) (cs : List MapCall),
        (cs.foldl Ecma.after (Ecma.ctor_empty own)).GetType = kEcma
          ∧ (cs.foldl Ecma.after (Ecma.ctor_empty own)).kinds
              = [false, false, false, false, false, false, true]) := by
  refine ⟨?_, ?_, ?_, ?_, ?_, ?_, ⟨rfl, rfl⟩, ?_, ?_⟩
  · intro i cs
    rw [Int_foldl_after]
    exact ⟨rfl, rfl⟩
  · intro d cs
    rw [Double_foldl_after]
    exact ⟨rfl, rfl⟩
  · intro s cs
    rw [String_foldl_after]
    exact ⟨rfl, rfl⟩
  · intro S own
    exact ⟨rfl, rfl, fun cs v1 h => Vector_afterAll_eq_self cs _ v1 h,
      fun cs hcs => Vector_afterAll_ok cs _ hcs⟩
  · intro P own cs
    rw [Any.GetType, Map_foldl_after_toAny]
    exact ⟨rfl, rfl⟩
  · intro own cs
    rw [Any.GetType, Map_foldl_after_toAny]
    exact ⟨rfl, rfl⟩
  · intro P own cs
    rw [Any.GetType, Ecma_foldl_after_toAny]
    exact ⟨rfl, rfl⟩
  · intro own cs
    rw [Any.GetType, Ecma_foldl_after_toAny]
    exact ⟨rfl, rfl⟩

theorem tag_fixed_by_constructor_witness :
    (Vector.ctor [11, 12] true).afterAll
        [VectorCall.subscript 0, VectorCall.GetVal, VectorCall.subscript 5]
      = .ok (Vector.ctor [11, 12] true) :=
  (tag_fixed_by_constructor.2.2.2.1 [11, 12] true).2.2.2
    [VectorCall.subscript 0, VectorCall.GetVal, VectorCall.subscript 5]
    (by
      intro i hi
      simp at hi
      rcases hi with h | h <;> subst h <;> decide)

/-! ## Checked accessors -/

/-- C8: an Int, Double or String object built from a value `v` gives
`(true, v)` to the checked accessor of its own kind, and gives false, with
the output argument as it was, to each of the five other checked accessors. -/
theorem checked_accessor_roundtrip (i : int64_t) (d : double) (s : std.string)
    (vs : List Ptr) (m : map_type) (e : ecma_type) :
    (∀ v : int64_t,
        (Obj.ofInt (Int.ctor v)).GetInt i = .ok (true, v)
          ∧ (Obj.ofInt (Int.ctor v)).GetDouble d = .ok (false, d)
          ∧ (Obj.ofInt (Int.ctor v)).GetString s = .ok (false, s)
          ∧ (Obj.ofInt (Int.ctor v)).GetVector vs = .ok (false, vs)
          ∧ (Obj.ofInt (Int.ctor v)).GetMap m = .ok (false, m)
          ∧ (Obj.ofInt (Int.ctor v)).GetEcma e = .ok (false, e))
      ∧ (∀ v : double,
        (Obj.ofDouble (Double.ctor v)).GetDouble d = .ok (true, v)
          ∧ (Obj.ofDouble (Double.ctor v)).GetInt i = .ok (false, i)
          ∧ (Obj.ofDouble (Double.ctor v)).GetString s = .ok (false, s)
          ∧ (Obj.ofDouble (Double.ctor v)).GetVector vs = .ok (false, vs)
          ∧ (Obj.ofDouble (Double.ctor v)).GetMap m = .ok (false, m)
          ∧ (Obj.ofDouble (Double.ctor v)).GetEcma e = .ok (false, e))
      ∧ (∀ v : std.string,
        (Obj.ofString (String.ctor v)).GetString s = .ok (true, v)
          ∧ (Obj.ofString (String.ctor v)).GetInt i = .ok (false, i)
          ∧ (Obj.ofString (String.ctor v)).GetDouble d = .ok (false, d)
          ∧ (Obj.ofString (String.ctor v)).GetVector vs = .ok (false, vs)
          ∧ (Obj.ofString (String.ctor v)).GetMap m = .ok (false, m)
          ∧ (Obj.ofString (String.ctor v)).GetEcma e = .ok (false, e)) :=
  ⟨fun _ => ⟨rfl, rfl, rfl, rfl, rfl, rfl⟩, fun _ => ⟨rfl, rfl, rfl, rfl, rfl, rfl⟩,
   fun _ => ⟨rfl, rfl, rfl, rfl, rfl, rfl⟩⟩

/-! ## Order of the contents -/

theorem Map_insertAll_eq (P : List (std.string × Ptr)) :
    ∀ m : Map, m.insertAll P = { m with val_ := m.val_ ++ P } := by
  induction P with
  | nil => intro m; simp [Map.insertAll]
  | cons kv P ih =>
    intro m
    have h := ih (m.Insert kv.1 kv.2).1
    simp only [Map.insertAll, List.foldl_cons] at h ⊢
    rw [h]
    simp [Map.Insert]

theorem Ecma_insertAll_eq (P : List (std.string × Ptr)) :
    ∀ e : Ecma, e.insertAll P = { e with val_ := e.val_ ++ P } := by
  induction P with
  | nil => intro e; simp [Ecma.insertAll]
  | cons kv P ih =>
    intro e
    have h := ih (e.Insert kv.1 kv.2).1
    simp only [Ecma.insertAll, List.foldl_cons] at h ⊢
    rw [h]
    simp [Ecma.Insert]

/-- C10: `GetVal` of the Vector of `S` is `S`, `GetVal` of the Map (and of the
Ecma) of `P` is `P`, and a Map (or Ecma) constructed empty and then filled by
`Insert` with the pairs of `P` in order is the same object as the one
constructed from `P`; in general the inserted pairs follow the old ones in
insertion order. -/
theorem contents_keep_order (S : List Ptr) (P : List (std.string × Ptr)) (own : Bool) :
    (Vector.ctor S own).GetVal = S
      ∧ (Map.ctor P own).GetVal = P
      ∧ (Ecma.ctor P own).GetVal = P
      ∧ (Map.ctor_empty own).insertAll P = Map.ctor P own
      ∧ (Ecma.ctor_empty own).insertAll P = Ecma.ctor P own
      ∧ (∀ m : Map, (m.insertAll P).GetVal = m.GetVal ++ P)
      ∧ (∀ e : Ecma, (e.insertAll P).GetVal = e.GetVal ++ P) := by
  refine ⟨rfl, rfl, rfl, ?_, ?_, ?_, ?_⟩
  · rw [Map_insertAll_eq]; simp [Map.ctor_empty, Map.ctor]
  · rw [Ecma_insertAll_eq]; simp [Ecma.ctor_empty, Ecma.ctor]
  · intro m; rw [Map_insertAll_eq]; rfl
  · intro e; rw [Ecma_insertAll_eq]; rfl

/-! ## Destruction -/

theorem forEach_map {α β σ : Type} (f : α → β) (body : β → σ → Except Fault σ) :
    ∀ (xs : List α) (s : σ),
      forEach (fun x => body (f x)) xs s = forEach body (xs.map f) s := by
  intro xs
  induction xs with
  | nil => intro s; rfl
  | cons x xs ih =>
    intro s
    simp only [forEach, List.map_cons]
    cases body (f x) s with
    | ok s1 => exact ih s1
    | error e => rfl

theorem Obj_dtor_eq {σ : Type} (del : Ptr → σ → Except Fault σ) (o : Obj) (s : σ) :
    o.dtor del s = if o.owns then forEach del o.children s else .ok s := by
  cases o with
  | ofVector v => rfl
  | ofMap m =>
    simp only [Obj.dtor, Map.dtor, Obj.owns, Obj.children]
    rw [forEach_map (fun kv : std.string × Ptr => kv.2) del]
  | ofEcma e =>
    simp only [Obj.dtor, Ecma.dtor, Obj.owns, Obj.children]
    rw [forEach_map (fun kv : std.string × Ptr => kv.2) del]
  | ofInt _ => rfl
  | ofDouble _ => rfl
  | ofString _ => rfl
  | ofNull _ => rfl

theorem forEach_recordDelete :
    ∀ (cs log : List Ptr), forEach recordDelete cs log = .ok (log ++ cs) := by
  intro cs
  induction cs with
  | nil => intro log; simp [forEach]
  | cons c cs ih =>
    intro log
    simp only [forEach, recordDelete]
    rw [ih]
    simp

theorem Heap_find_free (h : Heap) (p q : Ptr) :
    Heap.find (Heap.free h p) q = if q = p then none else Heap.find h q := by
  induction h with
  | nil => simp [Heap.free, Heap.find]
  | cons e rest ih =>
    by_cases hep : e.1 = p
    · simp only [Heap.free, hep, if_true, ih, Heap.find]
      by_cases hqp : q = p
      · simp [hqp]
      · have : ¬ p = q := fun h => hqp h.symm
        simp [hqp, this]
    · simp only [Heap.free, hep, if_false, Heap.find, ih]
      by_cases heq : e.1 = q
      · have : ¬ q = p := fun h => hep (heq.trans h)
        simp [heq, this]
      · simp [heq]

theorem Heap_free_length_le (h : Heap) (p : Ptr) : (Heap.free h p).length ≤ h.length := by
  induction h with
  | nil => simp [Heap.free]
  | cons e rest ih =>
    by_cases hep : e.1 = p
    · simp only [Heap.free, hep, if_true, List.length_cons]
      exact Nat.le_succ_of_le ih
    · simp only [Heap.free, hep, if_false, List.length_cons]
      exact Nat.succ_le_succ ih

theorem Heap_free_length_lt (h : Heap) (p : Ptr) (hp : Heap.find h p ≠ none) :
    (Heap.free h p).length < h.length := by
  induction h with
  | nil => simp [Heap.find] at hp
  | cons e rest ih =>
    by_cases hep : e.1 = p
    · simp only [Heap.free, hep, if_true, List.length_cons]
      exact Nat.lt_succ_of_le (Heap_free_length_le rest p)
    · simp only [Heap.find, hep, if_false] at hp
      simp only [Heap.free, hep, if_false, List.length_cons]
      exact Nat.succ_lt_succ (ih hp)

theorem Heap_Shrinks_refl (h : Heap) : Heap.Shrinks h h := fun _ => Or.inr rfl

theorem Heap_Shrinks_trans {h h1 h2 : Heap} (a : Heap.Shrinks h h1) (b : Heap.Shrinks h1 h2) :
    Heap.Shrinks h h2 := by
  intro q
  rcases b q with hb | hb
  · exact Or.inl hb
  · rcases a q with ha | ha
    · exact Or.inl (hb.trans ha)
    · exact Or.inr (hb.trans ha)

theorem Heap_Shrinks_dead {h h1 : Heap} (a : Heap.Shrinks h h1) {q : Ptr}
    (hq : Heap.find h q = none) : Heap.find h1 q = none := by
  rcases a q with ha | ha
  · exact ha
  · exact ha.trans hq

theorem Heap_Shrinks_live {h h1 : Heap} (a : Heap.Shrinks h h1) {q : Ptr}
    (hq : Heap.find h1 q ≠ none) : Heap.find h1 q = Heap.find h q := by
  rcases a q with ha | ha
  · exact absurd ha hq
  · exact ha

theorem Heap_Shrinks_free (h : Heap) (p : Ptr) : Heap.Shrinks h (Heap.free h p) := by
  intro q
  rw [Heap_find_free]
  by_cases hqp : q = p
  · simp [hqp]
  · simp [hqp]

theorem Heap_Good_refl (h : Heap) : Heap.Good h h := by
  refine ⟨Heap_Shrinks_refl h, Nat.le_refl _, ?_⟩
  intro q o hq hq1
  rw [hq] at hq1
  cases hq1

theorem Heap_Good_trans {h h1 h2 : Heap} (a : Heap.Good h h1) (b : Heap.Good h1 h2) :
    Heap.Good h h2 := by
  obtain ⟨s1, l1, c1⟩ := a
  obtain ⟨s2, l2, c2⟩ := b
  refine ⟨Heap_Shrinks_trans s1 s2, Nat.le_trans l2 l1, ?_⟩
  intro q o hq hq2 hown c hc hcn
  by_cases hq1 : Heap.find h1 q = none
  · obtain ⟨ha, hb⟩ := c1 q o hq hq1 hown c hc hcn
    exact ⟨ha, Heap_Shrinks_dead s2 hb⟩
  · have e : Heap.find h1 q = some o := (Heap_Shrinks_live s1 hq1).trans hq
    obtain ⟨ha, hb⟩ := c2 q o e hq2 hown c hc hcn
    refine ⟨?_, hb⟩
    rw [← Heap_Shrinks_live s1 ha]
    exact ha

theorem forEach_cons_ok {α σ : Type} (body : α → σ → Except Fault σ) (x : α) (xs : List α)
    (s s2 : σ) (h : forEach body (x :: xs) s = .ok s2) :
    ∃ s1, body x s = .ok s1 ∧ forEach body xs s1 = .ok s2 := by
  simp only [forEach] at h
  cases hb : body x s with
  | ok s1 =>
    rw [hb] at h
    exact ⟨s1, rfl, h⟩
  | error e =>
    rw [hb] at h
    cases h

theorem forEach_delete_good (del : Ptr → Heap → Except Fault Heap)
    (hdel : ∀ p h h1, del p h = .ok h1 →
      Heap.Good h h1 ∧ (p ≠ NULL → Heap.find h p ≠ none ∧ Heap.find h1 p = none)) :
    ∀ (cs : List Ptr) (h h1 : Heap), forEach del cs h = .ok h1 →
      Heap.Good h h1
        ∧ ∀ c ∈ cs, c ≠ NULL → Heap.find h c ≠ none ∧ Heap.find h1 c = none := by
  intro cs
  induction cs with
  | nil =>
    intro h h1 hrun
    have e : h = h1 := Except.ok.inj hrun
    subst e
    exact ⟨Heap_Good_refl h, fun c hc => by simp at hc⟩
  | cons c0 cs ih =>
    intro h h1 hrun
    obtain ⟨s1, hstep, hrest⟩ := forEach_cons_ok del c0 cs h h1 hrun
    obtain ⟨g1, d1⟩ := hdel c0 h s1 hstep
    obtain ⟨g2, d2⟩ := ih s1 h1 hrest
    refine ⟨Heap_Good_trans g1 g2, ?_⟩
    intro c hc hcn
    rcases List.mem_cons.mp hc with hc0 | hcs
    · subst hc0
      obtain ⟨ha, hb⟩ := d1 hcn
      exact ⟨ha, Heap_Shrinks_dead g2.1 hb⟩
    · obtain ⟨ha, hb⟩ := d2 c hcs hcn
      refine ⟨?_, hb⟩
      rw [← Heap_Shrinks_live g1.1 ha]
      exact ha

theorem delete_good :
    ∀ (fuel : Nat) (p : Ptr) (h h1 : Heap), delete fuel p h = .ok h1 →
      Heap.Good h h1 ∧ (p ≠ NULL → Heap.find h p ≠ none ∧ Heap.find h1 p = none) := by
  intro fuel
  induction fuel with
  | zero => intro p h h1 hrun; cases hrun
  | succ fuel ih =>
    intro p h h1 hrun
    simp only [delete] at hrun
    by_cases hp : p = NULL
    · simp only [hp, if_true] at hrun
      have e : h = h1 := Except.ok.inj hrun
      subst e
      exact ⟨Heap_Good_refl h, fun hn => absurd hp hn⟩
    · simp only [hp, if_false] at hrun
      cases hfind : Heap.find h p with
      | none =>
        rw [hfind] at hrun
        cases hrun
      | some o =>
        rw [hfind] at hrun
        simp only [] at hrun
        rw [Obj_dtor_eq] at hrun
        have hfree : Heap.find (Heap.free h p) p = none := by
          rw [Heap_find_free]; simp
        by_cases hown : o.owns = true
        · simp only [hown, if_true] at hrun
          obtain ⟨g, d⟩ := forEach_delete_good (delete fuel) ih o.children _ h1 hrun
          have hs : Heap.Shrinks h h1 := Heap_Shrinks_trans (Heap_Shrinks_free h p) g.1
          refine ⟨⟨hs, Nat.le_trans g.2.1 (Heap_free_length_le h p), ?_⟩, fun _ => ?_⟩
          · intro q oq hq hq1 hqown c hc hcn
            by_cases hqp : q = p
            · subst hqp
              have e : oq = o := by
                rw [hfind] at hq
                exact (Option.some.inj hq).symm
              subst e
              obtain ⟨ha, hb⟩ := d c hc hcn
              refine ⟨?_, hb⟩
              rw [← Heap_Shrinks_live (Heap_Shrinks_free h q) ha]
              exact ha
            · have e : Heap.find (Heap.free h p) q = some oq := by
                rw [Heap_find_free]; simp [hqp, hq]
              obtain ⟨ha, hb⟩ := g.2.2 q oq e hq1 hqown c hc hcn
              refine ⟨?_, hb⟩
              rw [← Heap_Shrinks_live (Heap_Shrinks_free h p) ha]
              exact ha
          · exact ⟨by simp, Heap_Shrinks_dead g.1 hfree⟩
        · simp only [hown] at hrun
          have e : Heap.free h p = h1 := Except.ok.inj hrun
          subst e
          refine ⟨⟨Heap_Shrinks_free h p, Heap_free_length_le h p, ?_⟩, fun _ => ?_⟩
          · intro q oq hq hq1 hqown c hc hcn
            have hqp : q = p := by
              by_contra hne
              rw [Heap_find_free] at hq1
              simp [hne, hq] at hq1
            subst hqp
            rw [hfind] at hq
            have e : oq = o := (Option.some.inj hq).symm
            subst e
            exact absurd hqown hown
          · exact ⟨by simp, hfree⟩

theorem forEach_delete_fuel (del : Ptr → Heap → Except Fault Heap) (n : Nat)
    (hlen : ∀ p h h1, del p h = .ok h1 → h1.length ≤ h.length)
    (hfuel : ∀ p h, h.length < n → del p h ≠ .error Fault.outOfFuel) :
    ∀ (cs : List Ptr) (h : Heap), h.length < n →
      forEach del cs h ≠ .error Fault.outOfFuel := by
  intro cs
  induction cs with
  | nil => intro h _ hbad; cases hbad
  | cons c cs ih =>
    intro h hn hbad
    simp only [forEach] at hbad
    cases hb : del c h with
    | ok s1 =>
      rw [hb] at hbad
      exact ih s1 (Nat.lt_of_le_of_lt (hlen c h s1 hb) hn) hbad
    | error e =>
      rw [hb] at hbad
      have e1 : e = Fault.outOfFuel := Except.error.inj hbad
      subst e1
      exact hfuel c h hn hb

theorem delete_fuel :
    ∀ (fuel : Nat) (p : Ptr) (h : Heap), h.length < fuel →
      delete fuel p h ≠ .error Fault.outOfFuel := by
  intro fuel
  induction fuel with
  | zero => intro p h hn; exact absurd hn (Nat.not_lt_zero _)
  | succ fuel ih =>
    intro p h hn hbad
    simp only [delete] at hbad
    by_cases hp : p = NULL
    · simp only [hp, if_true] at hbad
      cases hbad
    · simp only [hp, if_false] at hbad
      cases hfind : Heap.find h p with
      | none =>
        rw [hfind] at hbad
        cases hbad
      | some o =>
        rw [hfind] at hbad
        simp only [] at hbad
        rw [Obj_dtor_eq] at hbad
        have hlt : (Heap.free h p).length < fuel :=
          Nat.lt_of_lt_of_le (Heap_free_length_lt h p (by rw [hfind]; simp))
            (Nat.le_of_lt_succ hn)
        by_cases hown : o.owns = true
        · simp only [hown, if_true] at hbad
          exact forEach_delete_fuel (delete fuel) fuel
            (fun q s s1 hq => (delete_good fuel q s s1 hq).1.2.1) ih o.children _ hlt hbad
        · simp only [hown] at hbad
          cases hbad

theorem ownedForest_cons (tree : Ptr → Option (List Ptr)) (c : Ptr) (cs l : List Ptr)
    (h : ownedForest tree (c :: cs) = some l) :
    ∃ a b, tree c = some a ∧ ownedForest tree cs = some b ∧ l = a ++ b := by
  simp only [ownedForest] at h
  cases ha : tree c with
  | none => rw [ha] at h; cases h
  | some a =>
    cases hb : ownedForest tree cs with
    | none => rw [ha, hb] at h; cases h
    | some b =>
      rw [ha, hb] at h
      exact ⟨a, b, rfl, rfl, (Option.some.inj h).symm⟩

theorem forEach_delete_forest (del : Ptr → Heap → Except Fault Heap)
    (tree : Ptr → Option (List Ptr)) (h : Heap)
    (hdel : ∀ p l, tree p = some l → ∀ h0 : Heap,
      (∀ q ∈ l, Heap.find h0 q = Heap.find h q) → l.Nodup →
      ∃ h1, del p h0 = .ok h1
        ∧ ∀ q, Heap.find h1 q = if q ∈ l then none else Heap.find h0 q) :
    ∀ (cs l : List Ptr), ownedForest tree cs = some l → ∀ h0 : Heap,
      (∀ q ∈ l, Heap.find h0 q = Heap.find h q) → l.Nodup →
      ∃ h1, forEach del cs h0 = .ok h1
        ∧ ∀ q, Heap.find h1 q = if q ∈ l then none else Heap.find h0 q := by
  intro cs
  induction cs with
  | nil =>
    intro l hl h0 _ _
    have e : l = [] := (Option.some.inj hl).symm
    subst e
    exact ⟨h0, rfl, fun q => by simp⟩
  | cons c cs ih =>
    intro l hl h0 hagree hnd
    obtain ⟨a, b, ha, hb, e⟩ := ownedForest_cons tree c cs l hl
    subst e
    have hnda : a.Nodup := (List.nodup_append.mp hnd).1
    have hndb : b.Nodup := (List.nodup_append.mp hnd).2.1
    have hdisj : ∀ q, q ∈ a → q ∈ b → False := fun q hqa hqb =>
      (List.nodup_append.mp hnd).2.2 hqa hqb
    obtain ⟨s1, hs1, hf1⟩ :=
      hdel c a ha h0 (fun q hq => hagree q (List.mem_append_left _ hq)) hnda
    have hagree1 : ∀ q ∈ b, Heap.find s1 q = Heap.find h q := by
      intro q hq
      have hqa : q ∉ a := fun hqa => hdisj q hqa hq
      rw [hf1 q, if_neg hqa]
      exact hagree q (List.mem_append_right _ hq)
    obtain ⟨s2, hs2, hf2⟩ := ih b hb s1 hagree1 hndb
    refine ⟨s2, ?_, ?_⟩
    · simp only [forEach, hs1]
      exact hs2
    · intro q
      rw [hf2 q, hf1 q]
      by_cases hqb : q ∈ b
      · simp [hqb]
      · by_cases hqa : q ∈ a
        · simp [hqa]
        · simp [hqa, hqb]

theorem delete_tree :
    ∀ (fuel : Nat) (h : Heap) (p : Ptr) (l : List Ptr), ownedTree fuel h p = some l →
      ∀ h0 : Heap, (∀ q ∈ l, Heap.find h0 q = Heap.find h q) → l.Nodup →
      ∃ h1, delete fuel p h0 = .ok h1
        ∧ ∀ q, Heap.find h1 q = if q ∈ l then none else Heap.find h0 q := by
  intro fuel h
  induction fuel with
  | zero => intro p l hl; cases hl
  | succ fuel ih =>
    intro p l hl h0 hagree hnd
    simp only [ownedTree] at hl
    by_cases hp : p = NULL
    · simp only [hp, if_true] at hl
      have e : l = [] := (Option.some.inj hl).symm
      subst e
      refine ⟨h0, ?_, fun q => by simp⟩
      simp [delete, hp]
    · simp only [hp, if_false] at hl
      cases hfind : Heap.find h p with
      | none => rw [hfind] at hl; cases hl
      | some o =>
        rw [hfind] at hl
        simp only [] at hl
        by_cases hown : o.owns = true
        · simp only [hown, if_true] at hl
          cases hforest : ownedForest (ownedTree fuel h) o.children with
          | none => rw [hforest] at hl; cases hl
          | some l1 =>
            rw [hforest] at hl
            have e : l = p :: l1 := (Option.some.inj hl).symm
            subst e
            have hpl1 : p ∉ l1 := (List.nodup_cons.mp hnd).1
            have hnd1 : l1.Nodup := (List.nodup_cons.mp hnd).2
            have hfind0 : Heap.find h0 p = some o :=
              (hagree p (List.mem_cons_self _ _)).trans hfind
            have hagree1 : ∀ q ∈ l1, Heap.find (Heap.free h0 p) q = Heap.find h q := by
              intro q hq
              have hqp : q ≠ p := fun e => hpl1 (e ▸ hq)
              rw [Heap_find_free, if_neg hqp]
              exact hagree q (List.mem_cons_of_mem _ hq)
            obtain ⟨h1, hrun, hf⟩ :=
              forEach_delete_forest (delete fuel) (ownedTree fuel h) h ih o.children l1
                hforest (Heap.free h0 p) hagree1 hnd1
            refine ⟨h1, ?_, ?_⟩
            · simp only [delete, hp, if_false, hfind0]
              rw [Obj_dtor_eq]
              simp only [hown, if_true]
              exact hrun
            · intro q
              rw [hf q, Heap_find_free]
              by_cases hqp : q = p
              · simp [hqp]
              · by_cases hql : q ∈ l1
                · simp [hql]
                · simp [hqp, hql]
        · simp only [hown] at hl
          have e : l = [p] := by
            simpa using (Option.some.inj hl).symm
          subst e
          have hfind0 : Heap.find h0 p = some o :=
            (hagree p (List.mem_cons_self _ _)).trans hfind
          refine ⟨Heap.free h0 p, ?_, ?_⟩
          · simp only [delete, hp, if_false, hfind0]
            rw [Obj_dtor_eq]
            simp [hown]
          · intro q
            rw [Heap_find_free]
            by_cases hqp : q = p
            · simp [hqp]
            · simp [hqp]

/-- C9: destruction follows the ownership flag.
(1) A Vector, Map or Ecma whose flag is off, as the constructors leave it by
default, has a destructor that evaluates no `delete` at all: whatever `delete`
does, the state is as before.
(2) With the flag on, the destructor evaluates `delete` on the child sequence
itself: every child, in sequence order, once per occurrence.
(3) On the heap, when `delete p` returns: no object was added or changed, the
object at `p` is released, and for every released object that is an owning
container each non-null child was live before and is released too, so that
destruction goes through nested owning containers.
(4) With more fuel than live objects `delete p` does not stop for lack of fuel.
(5) When the ownership tree below `p` has no pointer twice and no dangling
pointer, `delete p` returns and releases the objects of that tree and no other.
(6) `delete p` of a container whose flag is off releases that object only.
(7) Once per occurrence: an owning Vector that holds the live pointer 1 twice
deletes it twice, and the second `delete` is that of a released object. -/
theorem destruction_follows_ownership :
    (∀ (σ : Type) (del : Ptr → σ → Except Fault σ) (s : σ) (v : Vector) (m : Map) (e : Ecma),
        (v.delete_when_destruct_ = false → v.dtor del s = .ok s)
          ∧ (m.delete_when_destruct_ = false → m.dtor del s = .ok s)
          ∧ (e.delete_when_destruct_ = false → e.dtor del s = .ok s))
      ∧ (∀ (S : List Ptr) (P : List (std.string × Ptr)),
          (Vector.ctor S).delete_when_destruct_ = false
            ∧ (Map.ctor P).delete_when_destruct_ = false
            ∧ (Map.ctor_empty).delete_when_destruct_ = false
            ∧ (Ecma.ctor P).delete_when_destruct_ = false
            ∧ (Ecma.ctor_empty).delete_when_destruct_ = false)
      ∧ (∀ (log : List Ptr) (v : Vector) (m : Map) (e : Ecma),
        (v.delete_when_destruct_ = true → v.dtor recordDelete log = .ok (log ++ v.val_))
          ∧ (m.delete_when_destruct_ = true →
              m.dtor recordDelete log = .ok (log ++ m.val_.map (fun kv => kv.2)))
          ∧ (e.delete_when_destruct_ = true →
              e.dtor recordDelete log = .ok (log ++ e.val_.map (fun kv => kv.2))))
      ∧ (∀ (fuel : Nat) (p : Ptr) (h h1 : Heap), delete fuel p h = .ok h1 →
          (∀ q, Heap.find h1 q = none ∨ Heap.find h1 q = Heap.find h q)
            ∧ (p ≠ NULL → Heap.find h p ≠ none ∧ Heap.find h1 p = none)
            ∧ (∀ q o, Heap.find h q = some o → Heap.find h1 q = none → o.owns = true →
                ∀ c ∈ o.children, c ≠ NULL → Heap.find h c ≠ none ∧ Heap.find h1 c = none))
      ∧ (∀ (fuel : Nat) (p : Ptr) (h : Heap), h.length < fuel →
          delete fuel p h ≠ .error Fault.outOfFuel)
      ∧ (∀ (fuel : Nat) (p : Ptr) (h : Heap) (l : List Ptr),
          ownedTree fuel h p = some l → l.Nodup →
          ∃ h1, delete fuel p h = .ok h1
            ∧ ∀ q, Heap.find h1 q = if q ∈ l then none else Heap.find h q)
      ∧ (∀ (fuel : Nat) (p : Ptr) (h : Heap) (o : Obj),
          p ≠ NULL → Heap.find h p = some o → o.owns = false →
          delete (fuel + 1) p h = .ok (Heap.free h p)
            ∧ ∀ c, c ≠ p → Heap.find (Heap.free h p) c = Heap.find h c)
      ∧ ((Vector.ctor [1, 1] true).dtor recordDelete [] = .ok [1, 1]
          ∧ delete 3 7 ((7, Obj.ofVector (Vector.ctor [1, 1] true)) :: treeHeap)
              = .error Fault.invalidDelete) := by
  refine ⟨?_, ?_, ?_, ?_, ?_, ?_, ?_, ⟨rfl, rfl⟩⟩
  · intro σ del s v m e
    refine ⟨fun hv => ?_, fun hm => ?_, fun he => ?_⟩
    · simp [Vector.dtor, hv]
    · simp [Map.dtor, hm]
    · simp [Ecma.dtor, he]
  · intro S P
    exact ⟨rfl, rfl, rfl, rfl, rfl⟩
  · intro log v m e
    refine ⟨fun hv => ?_, fun hm => ?_, fun he => ?_⟩
    · simp only [Vector.dtor, hv, if_true]
      exact forEach_recordDelete v.val_ log
    · simp only [Map.dtor, hm, if_true]
      rw [forEach_map (fun kv : std.string × Ptr => kv.2) recordDelete]
      exact forEach_recordDelete _ log
    · simp only [Ecma.dtor, he, if_true]
      rw [forEach_map (fun kv : std.string × Ptr => kv.2) recordDelete]
      exact forEach_recordDelete _ log
  · intro fuel p h h1 hrun
    obtain ⟨g, d⟩ := delete_good fuel p h h1 hrun
    exact ⟨g.1, d, g.2.2⟩
  · exact delete_fuel
  · intro fuel p h l hl hnd
    exact delete_tree fuel h p l hl h (fun _ _ => rfl) hnd
  · intro fuel p h o hp hfind hown
    refine ⟨?_, fun c hc => ?_⟩
    · simp only [delete, hp, if_false, hfind]
      rw [Obj_dtor_eq]
      simp [hown]
    · rw [Heap_find_free, if_neg hc]

theorem destruction_follows_ownership_witness :
    (∃ h1, delete 3 4 treeHeap = .ok h1
        ∧ ∀ q, Heap.find h1 q
            = if q ∈ ([4, 3, 1, 2] : List Ptr) then none else Heap.find treeHeap q)
      ∧ (delete 1 5 treeHeap = .ok (Heap.free treeHeap 5)
        ∧ ∀ c, c ≠ 5 → Heap.find (Heap.free treeHeap 5) c = Heap.find treeHeap c)
      ∧ (Vector.ctor [1, NULL, 1] true).dtor recordDelete [] = .ok ([] ++ [1, NULL, 1])
      ∧ delete 7 4 treeHeap ≠ .error Fault.outOfFuel
      ∧ (Vector.ctor [6]).dtor (delete 7) treeHeap = .ok treeHeap
      ∧ (Heap.find treeHeap 1 ≠ none
          ∧ Heap.find [(5, Obj.ofVector (Vector.ctor [6])), (6, Obj.ofInt (Int.ctor 60))] 1
              = none) :=
  ⟨destruction_follows_ownership.2.2.2.2.2.1 3 4 treeHeap [4, 3, 1, 2] rfl (by decide),
   destruction_follows_ownership.2.2.2.2.2.2.1 0 5 treeHeap (Obj.ofVector (Vector.ctor [6]))
     (by decide) rfl rfl,
   (destruction_follows_ownership.2.2.1 [] (Vector.ctor [1, NULL, 1] true)
     (Map.ctor []) (Ecma.ctor [])).1 rfl,
   destruction_follows_ownership.2.2.2.2.1 7 4 treeHeap (by decide),
   (destruction_follows_ownership.1 Heap (delete 7) treeHeap (Vector.ctor [6])
     (Map.ctor []) (Ecma.ctor [])).1 rfl,
   (destruction_follows_ownership.2.2.2.1 3 4 treeHeap
     [(5, Obj.ofVector (Vector.ctor [6])), (6, Obj.ofInt (Int.ctor 60))] rfl).2.2
     3 (Obj.ofVector (Vector.ctor [1, NULL] true)) rfl rfl rfl 1 (by decide) (by decide)⟩

/-! ## The ownership flag -/

theorem Map_foldl_after_flag (cs : List MapCall) :
    ∀ m : Map, (cs.foldl Map.after m).delete_when_destruct_ = m.delete_when_destruct_ := by
  induction cs with
  | nil => intro m; rfl
  | cons c cs ih =>
    intro m
    rw [List.foldl_cons, ih]
    cases c <;> rfl

theorem Ecma_foldl_after_flag (cs : List MapCall) :
    ∀ e : Ecma, (cs.foldl Ecma.after e).delete_when_destruct_ = e.delete_when_destruct_ := by
  induction cs with
  | nil => intro e; rfl
  | cons c cs ih =>
    intro e
    rw [List.foldl_cons, ih]
    cases c <;> rfl

/-- C11: the ownership flag of a container is the one given to its constructor,
or false when none is given, and stays so: on a Map and on an Ecma after any
sequence of `Insert`, `operator[]` and `GetVal` calls, and on a Vector after
any sequence of `operator[]` and `GetVal` calls. On a Vector the sequence runs
to its end when no index is the largest `size_t`, and whenever it does run to
its end the flag is the constructed one. -/
theorem ownership_flag_fixed (P : List (std.string × Ptr)) (S : List Ptr) (own : Bool)
    (cs : List MapCall) (vs : List VectorCall) :
    ((cs.foldl Map.after (Map.ctor P own)).delete_when_destruct_ = own
        ∧ (cs.foldl Map.after (Map.ctor P)).delete_when_destruct_ = false
        ∧ (cs.foldl Map.after (Map.ctor_empty own)).delete_when_destruct_ = own
        ∧ (cs.foldl Map.after Map.ctor_empty).delete_when_destruct_ = false)
      ∧ ((cs.foldl Ecma.after (Ecma.ctor P own)).delete_when_destruct_ = own
        ∧ (cs.foldl Ecma.after (Ecma.ctor P)).delete_when_destruct_ = false
        ∧ (cs.foldl Ecma.after (Ecma.ctor_empty own)).delete_when_destruct_ = own
        ∧ (cs.foldl Ecma.after Ecma.ctor_empty).delete_when_destruct_ = false)
      ∧ ((Vector.ctor S own).delete_when_destruct_ = own
        ∧ (Vector.ctor S).delete_when_destruct_ = false
        ∧ (∀ v1 : Vector, (Vector.ctor S own).afterAll vs = .ok v1 →
            v1.delete_when_destruct_ = own)
        ∧ (∀ v1 : Vector, (Vector.ctor S).afterAll vs = .ok v1 →
            v1.delete_when_destruct_ = false)
        ∧ ((∀ i, VectorCall.subscript i ∈ vs → i + 1 < SIZE_MODULUS) →
            ∃ v1, (Vector.ctor S own).afterAll vs = .ok v1
              ∧ v1.delete_when_destruct_ = own)) := by
  refine ⟨⟨?_, ?_, ?_, ?_⟩, ⟨?_, ?_, ?_, ?_⟩, ⟨rfl, rfl, ?_, ?_, ?_⟩⟩
  · rw [Map_foldl_after_flag]; rfl
  · rw [Map_foldl_after_flag]; rfl
  · rw [Map_foldl_after_flag]; rfl
  · rw [Map_foldl_after_flag]; rfl
  · rw [Ecma_foldl_after_flag]; rfl
  · rw [Ecma_foldl_after_flag]; rfl
  · rw [Ecma_foldl_after_flag]; rfl
  · rw [Ecma_foldl_after_flag]; rfl
  · intro v1 h
    rw [Vector_afterAll_eq_self vs _ v1 h]
    rfl
  · intro v1 h
    rw [Vector_afterAll_eq_self vs _ v1 h]
    rfl
  · intro hvs
    exact ⟨Vector.ctor S own, Vector_afterAll_ok vs _ hvs, rfl⟩

theorem ownership_flag_fixed_witness :
    (∃ v1, (Vector.ctor [11, 12] true).afterAll
        [VectorCall.subscript 1, VectorCall.GetVal, VectorCall.subscript 9] = .ok v1
      ∧ v1.delete_when_destruct_ = true)
      ∧ (Vector.ctor [11, 12] true).delete_when_destruct_ = true :=
  ⟨(ownership_flag_fixed [] [11, 12] true []
      [VectorCall.subscript 1, VectorCall.GetVal, VectorCall.subscript 9]).2.2.2.2.2.2
    (by
      intro i hi
      simp at hi
      rcases hi with h | h <;> subst h <;> decide),
   (ownership_flag_fixed [] [11, 12] true []
      [VectorCall.subscript 1, VectorCall.GetVal]).2.2.2.2.1
    (Vector.ctor [11, 12] true) rfl⟩

/-! ## Map and Ecma side by side -/

theorem Map_Ecma_foldl_after_val (cs : List MapCall) :
    ∀ (m : Map) (e : Ecma), m.val_ = e.val_ →
      (cs.foldl Map.after m).val_ = (cs.foldl Ecma.after e).val_ := by
  induction cs with
  | nil => intro m e h; exact h
  | cons c cs ih =>
    intro m e h
    rw [List.foldl_cons, List.foldl_cons]
    apply ih
    cases c with
    | subscript key => exact h
    | Insert key val => simp only [Map.after, Ecma.after, Map.Insert, Ecma.Insert, h]
    | GetVal => exact h

/-- C12: a Map and an Ecma of the same pair sequence `P` answer every lookup
alike; `Insert(k, v)` returns true on both and leaves them with equal pair
sequences (and equal lookups), and so does any common sequence of calls; with
the same constructor flag they have the same flag, and their tags differ
(`kMap` against `kEcma`). -/
theorem Map_Ecma_same_semantics (P : List (std.string × Ptr)) (own : Bool)
    (k k1 : std.string) (v : Ptr) (cs : List MapCall) :
    (Map.ctor P own).subscript k = (Ecma.ctor P own).subscript k
      ∧ ((Map.ctor P own).Insert k v).2 = true
      ∧ ((Ecma.ctor P own).Insert k v).2 = true
      ∧ ((Map.ctor P own).Insert k v).1.GetVal = ((Ecma.ctor P own).Insert k v).1.GetVal
      ∧ ((Map.ctor P own).Insert k v).1.subscript k1
          = ((Ecma.ctor P own).Insert k v).1.subscript k1
      ∧ (cs.foldl Map.after (Map.ctor P own)).GetVal
          = (cs.foldl Ecma.after (Ecma.ctor P own)).GetVal
      ∧ (cs.foldl Map.after (Map.ctor P own)).subscript k
          = (cs.foldl Ecma.after (Ecma.ctor P own)).subscript k
      ∧ (Map.ctor P own).GetVal = (Ecma.ctor P own).GetVal
      ∧ (Map.ctor P own).delete_when_destruct_ = (Ecma.ctor P own).delete_when_destruct_
      ∧ (Map.ctor P own).GetType = kMap ∧ (Ecma.ctor P own).GetType = kEcma
      ∧ kMap ≠ kEcma := by
  have hcs := Map_Ecma_foldl_after_val cs (Map.ctor P own) (Ecma.ctor P own) rfl
  refine ⟨?_, rfl, rfl, rfl, ?_, hcs, ?_, rfl, rfl, rfl, rfl, by decide⟩
  · exact (Ecma_subscript_loop_eq_Map k P).symm
  · exact (Ecma_subscript_loop_eq_Map k1 (P ++ [(k, v)])).symm
  · simp only [Map.subscript, Ecma.subscript, hcs]
    exact (Ecma_subscript_loop_eq_Map k _).symm

/-! ## Lookup after insertion -/

theorem Map_subscript_loop_append_hit (k1 : std.string) (Q : List (std.string × Ptr)) :
    ∀ P : List (std.string × Ptr), (∃ kv ∈ P, kv.1 = k1) →
      Map.subscript_loop k1 (P ++ Q) = Map.subscript_loop k1 P := by
  intro P
  induction P with
  | nil => intro h; obtain ⟨kv, hkv, _⟩ := h; simp at hkv
  | cons item rest ih =>
    intro h
    by_cases hitem : item.1 = k1
    · simp [Map.subscript_loop, hitem]
    · have hrest : ∃ kv ∈ rest, kv.1 = k1 := by
        obtain ⟨kv, hkv, hk⟩ := h
        rcases List.mem_cons.mp hkv with e | hmem
        · exact absurd (e ▸ hk) hitem
        · exact ⟨kv, hmem, hk⟩
      simp only [List.cons_append, Map.subscript_loop, hitem, if_false]
      exact ih hrest

theorem Map_subscript_loop_append_miss (k1 : std.string) (Q : List (std.string × Ptr)) :
    ∀ P : List (std.string × Ptr), (∀ kv ∈ P, kv.1 ≠ k1) →
      Map.subscript_loop k1 (P ++ Q) = Map.subscript_loop k1 Q := by
  intro P
  induction P with
  | nil => intro _; rfl
  | cons item rest ih =>
    intro h
    have hitem : item.1 ≠ k1 := h item (List.mem_cons_self _ _)
    simp only [List.cons_append, Map.subscript_loop, hitem, if_false]
    exact ih (fun kv hkv => h kv (List.mem_cons_of_mem _ hkv))

/-- C13: `Insert(k, v)` on a Map or an Ecma does not shadow an entry: a lookup
key `k1` that some pair had before (be it `k` itself) gets the value it got
before; a lookup key that no pair had gets `v` when it is `k` and `NULL` when
it is not `k`. -/
theorem Insert_keeps_first_match (m : Map) (e : Ecma) (k k1 : std.string) (v : Ptr) :
    (((∃ kv ∈ m.GetVal, kv.1 = k1) → (m.Insert k v).1.subscript k1 = m.subscript k1)
        ∧ ((∀ kv ∈ m.GetVal, kv.1 ≠ k1) → k1 = k → (m.Insert k v).1.subscript k1 = v)
        ∧ ((∀ kv ∈ m.GetVal, kv.1 ≠ k1) → k1 ≠ k → (m.Insert k v).1.subscript k1 = NULL))
      ∧ (((∃ kv ∈ e.GetVal, kv.1 = k1) → (e.Insert k v).1.subscript k1 = e.subscript k1)
        ∧ ((∀ kv ∈ e.GetVal, kv.1 ≠ k1) → k1 = k → (e.Insert k v).1.subscript k1 = v)
        ∧ ((∀ kv ∈ e.GetVal, kv.1 ≠ k1) → k1 ≠ k →
            (e.Insert k v).1.subscript k1 = NULL)) := by
  refine ⟨⟨fun h => ?_, fun h hk => ?_, fun h hk => ?_⟩,
    ⟨fun h => ?_, fun h hk => ?_, fun h hk => ?_⟩⟩
  · exact Map_subscript_loop_append_hit k1 [(k, v)] m.val_ h
  · subst hk
    have hm := Map_subscript_loop_append_miss k1 [(k1, v)] m.val_ h
    simp only [Map.subscript, Map.Insert, hm, Map.subscript_loop, if_true]
  · have hm := Map_subscript_loop_append_miss k1 [(k, v)] m.val_ h
    have hne : ¬ k = k1 := fun h1 => hk h1.symm
    simp only [Map.subscript, Map.Insert, hm, Map.subscript_loop, hne, if_false]
  · simp only [Ecma.subscript, Ecma.Insert, Ecma_subscript_loop_eq_Map]
    exact Map_subscript_loop_append_hit k1 [(k, v)] e.val_ h
  · subst hk
    have hm := Map_subscript_loop_append_miss k1 [(k1, v)] e.val_ h
    simp only [Ecma.subscript, Ecma.Insert, Ecma_subscript_loop_eq_Map, hm,
      Map.subscript_loop, if_true]
  · have hm := Map_subscript_loop_append_miss k1 [(k, v)] e.val_ h
    have hne : ¬ k = k1 := fun h1 => hk h1.symm
    simp only [Ecma.subscript, Ecma.Insert, Ecma_subscript_loop_eq_Map, hm,
      Map.subscript_loop, hne, if_false]

theorem Insert_keeps_first_match_witness :
    (((Map.ctor [("a", 4), ("b", 0)]).Insert "b" 9).1.subscript "b"
        = (Map.ctor [("a", 4), ("b", 0)]).subscript "b"
      ∧ ((Map.ctor [("a", 4), ("b", 0)]).Insert "c" 9).1.subscript "c" = 9
      ∧ ((Map.ctor [("a", 4), ("b", 0)]).Insert "c" 9).1.subscript "d" = NULL)
      ∧ (((Ecma.ctor [("a", 4), ("b", 0)]).Insert "b" 9).1.subscript "b"
        = (Ecma.ctor [("a", 4), ("b", 0)]).subscript "b"
      ∧ ((Ecma.ctor [("a", 4), ("b", 0)]).Insert "c" 9).1.subscript "c" = 9
      ∧ ((Ecma.ctor [("a", 4), ("b", 0)]).Insert "c" 9).1.subscript "d" = NULL) :=
  ⟨⟨(Insert_keeps_first_match (Map.ctor [("a", 4), ("b", 0)])
        (Ecma.ctor [("a", 4), ("b", 0)]) "b" "b" 9).1.1 ⟨("b", 0), by decide, rfl⟩,
    (Insert_keeps_first_match (Map.ctor [("a", 4), ("b", 0)])
        (Ecma.ctor [("a", 4), ("b", 0)]) "c" "c" 9).1.2.1 (by decide) rfl,
    (Insert_keeps_first_match (Map.ctor [("a", 4), ("b", 0)])
        (Ecma.ctor [("a", 4), ("b", 0)]) "c" "d" 9).1.2.2 (by decide) (by decide)⟩,
   ⟨(Insert_keeps_first_match (Map.ctor [("a", 4), ("b", 0)])
        (Ecma.ctor [("a", 4), ("b", 0)]) "b" "b" 9).2.1 ⟨("b", 0), by decide, rfl⟩,
    (Insert_keeps_first_match (Map.ctor [("a", 4), ("b", 0)])
        (Ecma.ctor [("a", 4), ("b", 0)]) "c" "c" 9).2.2.1 (by decide) rfl,
    (Insert_keeps_first_match (Map.ctor [("a", 4), ("b", 0)])
        (Ecma.ctor [("a", 4), ("b", 0)]) "c" "d" 9).2.2.2 (by decide) (by decide)⟩⟩

/-! ## Absent results -/

theorem Map_subscript_loop_cases (k : std.string) :
    ∀ P : List (std.string × Ptr),
      (Map.subscript_loop k P = NULL ∧ ∀ kv ∈ P, kv.1 ≠ k)
        ∨ ∃ (j : Nat) (hj : j < P.length),
            P.get ⟨j, hj⟩ = (k, Map.subscript_loop k P)
              ∧ ∀ i (hi : i < j), (P.get ⟨i, Nat.lt_trans hi hj⟩).1 ≠ k := by
  intro P
  induction P with
  | nil => exact Or.inl ⟨rfl, fun kv hkv => by simp at hkv⟩
  | cons item rest ih =>
    by_cases hitem : item.1 = k
    · refine Or.inr ⟨0, Nat.succ_pos _, ?_, fun i hi => absurd hi (Nat.not_lt_zero i)⟩
      simp only [Map.subscript_loop, hitem, if_true, List.get]
      exact Prod.ext hitem rfl
    · rcases ih with ⟨hnull, hall⟩ | ⟨j, hj, hget, hmin⟩
      · refine Or.inl ⟨?_, ?_⟩
        · simp only [Map.subscript_loop, hitem, if_false]
          exact hnull
        · intro kv hkv
          rcases List.mem_cons.mp hkv with e | hmem
          · exact e ▸ hitem
          · exact hall kv hmem
      · refine Or.inr ⟨j + 1, Nat.succ_lt_succ hj, ?_, ?_⟩
        · simp only [Map.subscript_loop, hitem, if_false, List.get]
          exact hget
        · intro i hi
          cases i with
          | zero => exact hitem
          | succ i => exact hmin i (Nat.lt_of_succ_lt_succ hi)

theorem Map_subscript_loop_null_iff (k : std.string) (P : List (std.string × Ptr))
    (hP : ∀ kv ∈ P, kv.2 ≠ NULL) :
    Map.subscript_loop k P = NULL ↔ ∀ kv ∈ P, kv.1 ≠ k := by
  constructor
  · intro hnull
    rcases Map_subscript_loop_cases k P with ⟨_, hall⟩ | ⟨j, hj, hget, _⟩
    · exact hall
    · have hmem : P.get ⟨j, hj⟩ ∈ P := List.get_mem P j hj
      have h2 : (P.get ⟨j, hj⟩).2 = NULL := by rw [hget]; exact hnull
      exact absurd h2 (hP _ hmem)
  · exact Map_subscript_loop_absent k P

theorem Map_subscript_loop_found (k : std.string) (P : List (std.string × Ptr)) (v : Ptr)
    (hv : Map.subscript_loop k P = v) (hne : v ≠ NULL) :
    ∃ (j : Nat) (hj : j < P.length),
      P.get ⟨j, hj⟩ = (k, v)
        ∧ ∀ i (hi : i < j), (P.get ⟨i, Nat.lt_trans hi hj⟩).1 ≠ k := by
  rcases Map_subscript_loop_cases k P with ⟨hnull, _⟩ | ⟨j, hj, hget, hmin⟩
  · exact absurd (hv.symm.trans hnull) hne
  · exact ⟨j, hj, by rw [hget, hv], hmin⟩

/-- C14: on a Map and on an Ecma whose stored child pointers are all non-null,
`operator[](k)` returns `NULL` if and only if no pair has key `k`; and a
non-null result `v` is the value of a pair `(k, v)` of the sequence that no
pair with key `k` precedes. -/
theorem subscript_null_iff_absent (m : Map) (e : Ecma) (k : std.string) :
    (((∀ kv ∈ m.GetVal, kv.2 ≠ NULL) →
          (m.subscript k = NULL ↔ ∀ kv ∈ m.GetVal, kv.1 ≠ k))
        ∧ (∀ v : Ptr, m.subscript k = v → v ≠ NULL →
            ∃ (j : Nat) (hj : j < m.GetVal.length),
              m.GetVal.get ⟨j, hj⟩ = (k, v)
                ∧ ∀ i (hi : i < j), (m.GetVal.get ⟨i, Nat.lt_trans hi hj⟩).1 ≠ k))
      ∧ (((∀ kv ∈ e.GetVal, kv.2 ≠ NULL) →
          (e.subscript k = NULL ↔ ∀ kv ∈ e.GetVal, kv.1 ≠ k))
        ∧ (∀ v : Ptr, e.subscript k = v → v ≠ NULL →
            ∃ (j : Nat) (hj : j < e.GetVal.length),
              e.GetVal.get ⟨j, hj⟩ = (k, v)
                ∧ ∀ i (hi : i < j), (e.GetVal.get ⟨i, Nat.lt_trans hi hj⟩).1 ≠ k)) := by
  refine ⟨⟨fun hP => ?_, fun v hv hne => ?_⟩, ⟨fun hP => ?_, fun v hv hne => ?_⟩⟩
  · exact Map_subscript_loop_null_iff k m.val_ hP
  · exact Map_subscript_loop_found k m.val_ v hv hne
  · simp only [Ecma.subscript, Ecma_subscript_loop_eq_Map]
    exact Map_subscript_loop_null_iff k e.val_ hP
  · simp only [Ecma.subscript, Ecma_subscript_loop_eq_Map] at hv
    exact Map_subscript_loop_found k e.val_ v hv hne

theorem subscript_null_iff_absent_witness :
    ((Map.ctor [("a", 4), ("b", 5), ("b", 6)]).subscript "c" = NULL
        ↔ ∀ kv ∈ (Map.ctor [("a", 4), ("b", 5), ("b", 6)]).GetVal, kv.1 ≠ "c")
      ∧ ((Ecma.ctor [("a", 4), ("b", 5), ("b", 6)]).subscript "b" = NULL
        ↔ ∀ kv ∈ (Ecma.ctor [("a", 4), ("b", 5), ("b", 6)]).GetVal, kv.1 ≠ "b")
      ∧ (∃ (j : Nat) (hj : j < (Map.ctor [("a", 4), ("b", 5), ("b", 6)]).GetVal.length),
          (Map.ctor [("a", 4), ("b", 5), ("b", 6)]).GetVal.get ⟨j, hj⟩ = ("b", 5)
            ∧ ∀ i (hi : i < j),
                ((Map.ctor [("a", 4), ("b", 5), ("b", 6)]).GetVal.get
                  ⟨i, Nat.lt_trans hi hj⟩).1 ≠ "b") :=
  ⟨(subscript_null_iff_absent (Map.ctor [("a", 4), ("b", 5), ("b", 6)])
      (Ecma.ctor [("a", 4), ("b", 5), ("b", 6)]) "c").1.1 (by decide),
   (subscript_null_iff_absent (Map.ctor [("a", 4), ("b", 5), ("b", 6)])
      (Ecma.ctor [("a", 4), ("b", 5), ("b", 6)]) "b").2.1 (by decide),
   (subscript_null_iff_absent (Map.ctor [("a", 4), ("b", 5), ("b", 6)])
      (Ecma.ctor [("a", 4), ("b", 5), ("b", 6)]) "b").1.2 5 (by decide) (by decide)⟩

/-! ## Names of the tags -/

theorem AnyTypeToStr_unknown_iff (t : uint8_t) : AnyTypeToStr t = "kUnknown" ↔ 6 < t := by
  by_cases h0 : t = 0
  · subst h0; decide
  by_cases h1 : t = 1
  · subst h1; decide
  by_cases h2 : t = 2
  · subst h2; decide
  by_cases h3 : t = 3
  · subst h3; decide
  by_cases h4 : t = 4
  · subst h4; decide
  by_cases h5 : t = 5
  · subst h5; decide
  by_cases h6 : t = 6
  · subst h6; decide
  have hgt : 6 < t := by
    rcases Nat.lt_or_ge 6 t with h | h
    · exact h
    · exfalso
      have : t = 0 ∨ t = 1 ∨ t = 2 ∨ t = 3 ∨ t = 4 ∨ t = 5 ∨ t = 6 := by
        clear h0 h1 h2 h3 h4 h5 h6
        revert t
        decide
      rcases this with h | h | h | h | h | h | h
      · exact h0 h
      · exact h1 h
      · exact h2 h
      · exact h3 h
      · exact h4 h
      · exact h5 h
      · exact h6 h
  have hval : AnyTypeToStr t = "kUnknown" := by
    simp only [AnyTypeToStr, kInt, kDouble, kString, kVector, kMap, kNull, kEcma, h0, h1, h2,
      h3, h4, h5, h6, if_false]
  exact ⟨fun _ => hgt, fun _ => hval⟩

/-- C15: `AnyTypeToStr` gives a name to every tag: the tags 0 to 6 get the
seven names "kInt", "kDouble", "kString", "kVector", "kMap", "kNull", "kEcma"
in that order, no two of them equal, and a tag gets "kUnknown" exactly when it
is greater than 6; so `TypeStr()` of an object built by one of the seven
constructors is the name of its class and never "kUnknown". -/
theorem AnyTypeToStr_names :
    [AnyTypeToStr 0, AnyTypeToStr 1, AnyTypeToStr 2, AnyTypeToStr 3, AnyTypeToStr 4,
        AnyTypeToStr 5, AnyTypeToStr 6]
        = ["kInt", "kDouble", "kString", "kVector", "kMap", "kNull", "kEcma"]
      ∧ [AnyTypeToStr kInt, AnyTypeToStr kDouble, AnyTypeToStr kString, AnyTypeToStr kVector,
          AnyTypeToStr kMap, AnyTypeToStr kNull, AnyTypeToStr kEcma]
        = ["kInt", "kDouble", "kString", "kVector", "kMap", "kNull", "kEcma"]
      ∧ ["kInt", "kDouble", "kString", "kVector", "kMap", "kNull", "kEcma", "kUnknown"].Nodup
      ∧ (∀ t : uint8_t, AnyTypeToStr t = "kUnknown" ↔ 6 < t)
      ∧ (∀ (i : int64_t) (d : double) (s : std.string) (S : List Ptr)
            (P : List (std.string × Ptr)) (own : Bool),
          ((Int.ctor i).TypeStr = "kInt" ∧ (Int.ctor i).TypeStr ≠ "kUnknown")
            ∧ ((Double.ctor d).TypeStr = "kDouble" ∧ (Double.ctor d).TypeStr ≠ "kUnknown")
            ∧ ((String.ctor s).TypeStr = "kString" ∧ (String.ctor s).TypeStr ≠ "kUnknown")
            ∧ ((Vector.ctor S own).TypeStr = "kVector"
                ∧ (Vector.ctor S own).TypeStr ≠ "kUnknown")
            ∧ ((Map.ctor P own).TypeStr = "kMap" ∧ (Map.ctor P own).TypeStr ≠ "kUnknown")
            ∧ ((Map.ctor_empty own).TypeStr = "kMap"
                ∧ (Map.ctor_empty own).TypeStr ≠ "kUnknown")
            ∧ (Null.ctor.TypeStr = "kNull" ∧ Null.ctor.TypeStr ≠ "kUnknown")
            ∧ ((Ecma.ctor P own).TypeStr = "kEcma" ∧ (Ecma.ctor P own).TypeStr ≠ "kUnknown")
            ∧ ((Ecma.ctor_empty own).TypeStr = "kEcma"
                ∧ (Ecma.ctor_empty own).TypeStr ≠ "kUnknown")) := by
  refine ⟨by decide, by decide, by decide, AnyTypeToStr_unknown_iff, ?_⟩
  intro i d s S P own
  refine ⟨⟨rfl, ?_⟩, ⟨rfl, ?_⟩, ⟨rfl, ?_⟩, ⟨rfl, ?_⟩, ⟨rfl, ?_⟩, ⟨rfl, ?_⟩, ⟨rfl, ?_⟩,
    ⟨rfl, ?_⟩, ⟨rfl, ?_⟩⟩
  all_goals
    intro h
    revert h
    simp only [Any.TypeStr, Int.ctor, Double.ctor, String.ctor, Vector.ctor, Map.ctor,
      Map.ctor_empty, Null.ctor, Ecma.ctor, Ecma.ctor_empty, Any.ctor]
    decide

end any
